import Mathlib

/-!
# Verification of the Kalshi volume bot's core trading logic

A shallow embedding, in Lean 4, of the decision logic of the bot:

* `src/models/position.py` — `Position` and its P&L properties;
* `src/strategy/position_sizer.py` — `PositionSizer.calculate_contracts`;
* `src/strategy/high_probability.py` — `HighProbabilityStrategy.evaluate_exit`;
* `src/scanner/filters.py` — `MarketFilters.evaluate` and its helpers;
* `src/scanner/market_scanner.py` — the dedup logic of `MarketScanner.scan_iter`;
* `src/executor/position_monitor.py` — `PositionMonitor.get_positions` /
  `count_positions`;
* `src/executor/order_manager.py` — `OrderManager.cancel_stale_orders`;
* `src/executor/exit_handler.py` — the `ExitHandler` state machine;
* `src/core/bot.py` — `DailyStats._compute_round_trips` (FIFO P&L matching).

Python `Decimal` values (prices in cents, percentages) are modelled as `ℚ`:
all arithmetic the embedded code performs on them (addition, multiplication,
comparison, division by non-tiny quantities at the magnitudes used) is exact
in `Decimal`'s 28-significant-digit context, so exact rational arithmetic is
faithful. Timestamps are modelled as integers (seconds). Python `set`s of
tickers are modelled as `List String` with set-flavoured insert/remove
helpers; the code only ever tests membership, inserts and removes.

Venue I/O (the `KalshiClient`) is modelled by passing the data a call would
return as an explicit argument: a successful positions read is
`some positions`, a raising one is `none`, an order placement outcome is a
`Bool`, and the market pages a scan sees are a list of markets.
-/

namespace KalshiBot

/-- `Side` from `src/models/market.py`: the two outcomes of a binary market. -/
inductive Side where
  | yes
  | no
deriving DecidableEq, Repr

/-- `Position` from `src/models/position.py`.  Prices are cents (`Decimal`
in the source, `ℚ` here); `volume` is the market's traded contract count. -/
structure Position where
  ticker : String
  side : Side
  contracts : ℤ
  averageEntryPrice : ℚ
  currentPrice : ℚ
  volume : ℤ := 0
deriving DecidableEq, Repr

namespace Position

/-- `Position.entry_cost`: total cost to enter the position in cents. -/
def entry_cost (p : Position) : ℚ :=
  p.averageEntryPrice * p.contracts

/-- `Position.current_value`: current value of the position in cents. -/
def current_value (p : Position) : ℚ :=
  p.currentPrice * p.contracts

/-- `Position.unrealized_pnl`: unrealized P&L in cents. -/
def unrealized_pnl (p : Position) : ℚ :=
  p.current_value - p.entry_cost

/-- `Position.unrealized_pnl_percent`: unrealized P&L as a fraction of entry
cost; the source returns `Decimal(0)` when the entry cost is zero instead of
dividing by zero. -/
def unrealized_pnl_percent (p : Position) : ℚ :=
  if p.entry_cost = 0 then 0 else p.unrealized_pnl / p.entry_cost

end Position

/-- Python `int()` applied to a `Decimal` quotient: truncation toward zero. -/
def truncToInt (q : ℚ) : ℤ :=
  if 0 ≤ q then ⌊q⌋ else ⌈q⌉

/-- The slice of `TradingSettings` (`config/settings.py`) that
`PositionSizer` reads: `max_position_percent` (validated `0.01 ≤ · ≤ 0.5`)
and `min_contracts` (validated `≥ 1`). -/
structure SizerSettings where
  maxPositionPct : ℚ
  minContracts : ℤ
deriving Repr

/-- `PositionSizer.calculate_contracts` from `src/strategy/position_sizer.py`:
degenerate inputs return `min_contracts`; otherwise
`int(portfolio_value * max_position_pct / entry_price)` floored to
`min_contracts`. -/
def calculate_contracts (cfg : SizerSettings)
    (portfolioValue entryPrice : ℚ) : ℤ :=
  if portfolioValue ≤ 0 ∨ entryPrice ≤ 0 then
    cfg.minContracts
  else
    let maxSpend := portfolioValue * cfg.maxPositionPct
    max (truncToInt (maxSpend / entryPrice)) cfg.minContracts

/-- `ExitSignal` from `src/models/order.py`. -/
structure ExitSignal where
  ticker : String
  side : Side
  contracts : ℤ
  exitPrice : ℚ
  reason : String
deriving DecidableEq, Repr

/-- The slice of `TradingSettings` that `HighProbabilityStrategy`'s exit
logic reads: `profit_target_percent`, `stop_loss_percent` (optional,
validated `0.01 ≤ · ≤ 0.5` when present) and `stop_loss_min_volume`. -/
structure ExitSettings where
  profitTarget : ℚ
  stopLoss : Option ℚ
  stopLossMinVolume : ℤ
deriving Repr

/-- `HighProbabilityStrategy.evaluate_exit` from
`src/strategy/high_probability.py`.  The source guards the stop-loss branch
with `if self.stop_loss and ...`, i.e. the configured stop-loss must be
present *and* non-zero (Python `Decimal` truthiness). -/
def evaluate_exit (cfg : ExitSettings) (p : Position) : Option ExitSignal :=
  let pnlPercent := p.unrealized_pnl_percent
  if pnlPercent ≥ cfg.profitTarget then
    some ⟨p.ticker, p.side, p.contracts, p.currentPrice, "profit_target"⟩
  else
    match cfg.stopLoss with
    | none => none
    | some sl =>
      if sl ≠ 0 ∧ pnlPercent ≤ -sl then
        if p.volume ≥ cfg.stopLossMinVolume then
          some ⟨p.ticker, p.side, p.contracts, p.currentPrice, "stop_loss"⟩
        else
          none
      else
        none

/-- `Market` from `src/models/market.py`, restricted to the fields the
filter pipeline and scanner read (`title`, `status`, timing fields and the
24h-volume/open-interest counters are untouched by the code verified here). -/
structure Market where
  ticker : String
  yesPrice : ℚ
  noPrice : ℚ
  yesBid : Option ℚ := none
  yesAsk : Option ℚ := none
  noBid : Option ℚ := none
  noAsk : Option ℚ := none
  volume : ℤ := 0
deriving DecidableEq, Repr

namespace Market

/-- `Market.has_liquidity`: some side has a non-`None`, positive bid. -/
def has_liquidity (m : Market) : Bool :=
  (match m.yesBid with | some b => decide (b > 0) | none => false) ||
  (match m.noBid with | some b => decide (b > 0) | none => false)

end Market

/-- `OrderBookLevel` from `src/models/market.py`. -/
structure OrderBookLevel where
  price : ℚ
  quantity : ℤ
deriving DecidableEq, Repr

/-- `OrderBook` from `src/models/market.py` (the `ticker` and `timestamp`
fields are unused by the verified logic). -/
structure OrderBook where
  yesBids : List OrderBookLevel := []
  yesAsks : List OrderBookLevel := []
  noBids : List OrderBookLevel := []
  noAsks : List OrderBookLevel := []
deriving DecidableEq, Repr

namespace OrderBook

/-- One side's contribution to `OrderBook.calculate_liquidity`: if the side
is non-empty, sum `price * quantity` over the levels within `depth` of the
best (first) level, comparing via `within best.price level.price`. -/
def sideLiquidity (levels : List OrderBookLevel)
    (within : ℚ → ℚ → Bool) : ℚ :=
  match levels with
  | [] => 0
  | best :: _ =>
    ((levels.filter (fun l => within best.price l.price)).map
      (fun l => l.price * (l.quantity : ℚ))).sum

/-- `OrderBook.calculate_liquidity(depth_cents=5)`: total `price * quantity`
within 5 cents of the best yes bid plus the same for yes asks. -/
def calculate_liquidity (ob : OrderBook) : ℚ :=
  sideLiquidity ob.yesBids (fun best p => decide (best - p ≤ 5)) +
  sideLiquidity ob.yesAsks (fun best p => decide (p - best ≤ 5))

/-- `OrderBook.get_best_price(side, "buy")`: the first ask level's price on
the requested side (the "sell" action is never used by the verified code). -/
def bestBuyPrice (ob : OrderBook) (side : Side) : Option ℚ :=
  match side with
  | .yes => ob.yesAsks.head?.map (·.price)
  | .no => ob.noAsks.head?.map (·.price)

end OrderBook

/-- `MarketOpportunity` from `src/models/market.py`. -/
structure MarketOpportunity where
  market : Market
  orderbook : OrderBook
  recommendedSide : Side
  entryPrice : ℚ
  liquidity : ℚ
  probability : ℚ
deriving DecidableEq, Repr

/-- The slice of state `MarketFilters` (`src/scanner/filters.py`) builds in
its constructor.  `passes_category` delegates to the regex machinery of
`src/scanner/categories.py` against the configured category; the claims
verified here hold for *every* category predicate, so it is carried as an
arbitrary boolean function on markets. -/
structure FilterSettings where
  passesCategory : Market → Bool
  liquidityThresholdCents : ℚ
  probabilityThreshold : ℚ
  maxProbabilityThreshold : ℚ

/-- `MarketFilters.passes_liquidity`: orderbook depth first; if that is zero
but the market has bids, fall back to `volume * mid-price` as a proxy
(passing unconditionally when no threshold is configured). -/
def passes_liquidity (cfg : FilterSettings) (m : Market) (ob : OrderBook) :
    Bool :=
  let liquidity := ob.calculate_liquidity
  if liquidity = 0 ∧ m.has_liquidity then
    if cfg.liquidityThresholdCents = 0 then
      true
    else
      decide
        ((m.volume : ℚ) * ((m.yesPrice + m.noPrice) / 2) ≥
          cfg.liquidityThresholdCents)
  else
    decide (liquidity ≥ cfg.liquidityThresholdCents)

/-- `MarketFilters.passes_probability`: returns `Side.YES` when the yes-bid
probability, or else the yes-ask probability, lands in the configured band;
the NO side is never recommended. -/
def passes_probability (cfg : FilterSettings) (m : Market) : Option Side :=
  let yesProb := m.yesPrice / 100
  if cfg.probabilityThreshold ≤ yesProb ∧
      yesProb ≤ cfg.maxProbabilityThreshold then
    some .yes
  else
    match m.yesAsk with
    | some ask =>
      if cfg.probabilityThreshold ≤ ask / 100 ∧
          ask / 100 ≤ cfg.maxProbabilityThreshold then
        some .yes
      else
        none
    | none => none

/-- `MarketFilters._get_entry_price`: best ask from the orderbook, falling
back to the market-quoted ask.  The fallback guard is Python truthiness
(`if ... and market.yes_ask:`), so a present-but-zero quoted ask is not
used. -/
def get_entry_price (m : Market) (ob : OrderBook) (side : Side) : Option ℚ :=
  match ob.bestBuyPrice side with
  | some p => some p
  | none =>
    match side with
    | .yes =>
      match m.yesAsk with
      | some a => if a ≠ 0 then some a else none
      | none => none
    | .no =>
      match m.noAsk with
      | some a => if a ≠ 0 then some a else none
      | none => none

/-- `MarketFilters.evaluate` from `src/scanner/filters.py`: category,
liquidity, bid-probability screen, then the authoritative ask-based pricing
re-check (90-cent hard cap, `[1, 99]` domain, probability band on the entry
price) before building the `MarketOpportunity`. -/
def evaluate (cfg : FilterSettings) (m : Market) (ob : OrderBook) :
    Option MarketOpportunity :=
  if ¬cfg.passesCategory m then
    none
  else if ¬passes_liquidity cfg m ob then
    none
  else
    match passes_probability cfg m with
    | none => none
    | some recommendedSide =>
      match get_entry_price m ob recommendedSide with
      | none => none
      | some entryPrice =>
        if entryPrice > 90 then
          none
        else if entryPrice ≥ 100 ∨ entryPrice < 1 then
          none
        else
          let probability := entryPrice / 100
          if ¬(cfg.probabilityThreshold ≤ probability ∧
              probability ≤ cfg.maxProbabilityThreshold) then
            none
          else
            let liquidity0 := ob.calculate_liquidity
            let liquidity :=
              if liquidity0 = 0 ∧ m.volume > 0 then
                (m.volume : ℚ) * ((m.yesPrice + m.noPrice) / 2)
              else
                liquidity0
            some ⟨m, ob, recommendedSide, entryPrice, liquidity, probability⟩

/-- Set-flavoured insert on a ticker list (Python `set.add`): membership
semantics are all the code observes. -/
def addTicker (t : String) (s : List String) : List String :=
  if t ∈ s then s else t :: s

/-- Set-flavoured removal of one ticker (Python `set.discard`). -/
def removeTicker (t : String) (s : List String) : List String :=
  s.filter (· ≠ t)

/-- Index of the last `'-'` in a character list, counting from `start`
(Python `str.rfind`). -/
def lastDashIdx : List Char → ℕ → Option ℕ
  | [], _ => none
  | c :: cs, start =>
    match lastDashIdx cs (start + 1) with
    | some j => some j
    | none => if c = '-' then some start else none

/-- `MarketScanner._get_event_prefix`: everything before the last dash of a
ticker (the dash must not be the first character), identifying the shared
underlying event of binary-opponent markets. -/
def eventPrefix (ticker : String) : String :=
  match lastDashIdx ticker.toList 0 with
  | some i => if i > 0 then String.mk (ticker.toList.take i) else ticker
  | none => ticker

/-- The scanner's dedup state: `_existing_positions` and `_existing_events`
from `src/scanner/market_scanner.py`. -/
structure ScanState where
  positions : List String
  events : List String
deriving Repr

/-- `MarketScanner.set_existing_positions`: store the tickers and the set of
their event prefixes. -/
def setExistingPositions (tickers : List String) : ScanState :=
  ⟨tickers, tickers.map eventPrefix⟩

/-- The per-market body of `MarketScanner.scan_iter`, processing the markets
of the paginated listing in order.  `evalMarket` stands for everything the
loop does after the dedup checks — the category check, the quick filter, the
orderbook fetch and `MarketFilters.evaluate`, with the surrounding
`try/except` folded into `none` — parameterised because the dedup invariants
hold for every behaviour of that pipeline.  Pagination and the cooperative
stop flag only determine which market sequence is seen, so the run is
modelled on an arbitrary market list.  Returns the accepted (yielded)
markets in order plus the final state. -/
def scanRun (evalMarket : Market → Option MarketOpportunity) :
    List Market → ScanState → List Market × ScanState
  | [], st => ([], st)
  | m :: ms, st =>
    if m.ticker ∈ st.positions then
      scanRun evalMarket ms st
    else if eventPrefix m.ticker ∈ st.events then
      scanRun evalMarket ms st
    else
      match evalMarket m with
      | some _ =>
        let st' : ScanState :=
          ⟨addTicker m.ticker st.positions,
            addTicker (eventPrefix m.ticker) st.events⟩
        let (accepted, stFinal) := scanRun evalMarket ms st'
        (m :: accepted, stFinal)
      | none => scanRun evalMarket ms st

/-- `PositionMonitor`'s mutable state (`src/executor/position_monitor.py`):
the last successfully fetched snapshot and the pending-entry ticker set. -/
structure MonitorState where
  lastPositions : List Position
  pendingEntry : List String
deriving Repr

/-- `PositionMonitor.get_positions`.  The venue read is passed explicitly:
`some ps` models `client.get_positions()` returning `ps` (possibly empty),
`none` models it raising.  On success the snapshot is stored and every
confirmed ticker is discarded from the pending-entry set; on error the last
snapshot is returned and the state is untouched. -/
def get_positions (st : MonitorState) (fetched : Option (List Position)) :
    List Position × MonitorState :=
  match fetched with
  | some apiPositions =>
    (apiPositions,
      ⟨apiPositions,
        st.pendingEntry.filter (· ∉ apiPositions.map Position.ticker)⟩)
  | none => (st.lastPositions, st)

/-- `PositionMonitor.count_positions`: refresh positions, then count the
confirmed positions plus the pending-entry tickers not yet reflected in
them. -/
def count_positions (st : MonitorState) (fetched : Option (List Position)) :
    ℕ :=
  let (positions, st') := get_positions st fetched
  let positionTickers := positions.map Position.ticker
  positions.length +
    (st'.pendingEntry.filter (· ∉ positionTickers)).length

/-- `OrderStatus` from `src/models/order.py`. -/
inductive OrderStatus where
  | pending
  | open
  | resting
  | executed
  | filled
  | partiallyFilled
  | cancelled
  | failed
deriving DecidableEq, Repr

/-- A tracked order as `OrderManager._pending_orders` holds it: the fields
of `OrderResult` that `cancel_stale_orders` reads, with `created_at`
modelled as an integer timestamp in seconds. -/
structure TrackedOrder where
  orderId : String
  status : OrderStatus
  createdAt : ℤ
deriving DecidableEq, Repr

/-- `OrderManager.cancel_stale_orders` from `src/executor/order_manager.py`.
`orders` is the insertion-ordered content of `_pending_orders`; `cancelOk`
models `client.cancel_order`.  Returns the cancelled order ids and the
orders still tracked: an order is cancelled and dropped only when it is
`open`, strictly older than `timeoutSeconds`, and the venue cancellation
succeeds. -/
def cancel_stale_orders (timeoutSeconds now : ℤ)
    (cancelOk : String → Bool) :
    List TrackedOrder → List String × List TrackedOrder
  | [] => ([], [])
  | o :: rest =>
    let (cancelled, kept) := cancel_stale_orders timeoutSeconds now cancelOk rest
    if o.status = .open ∧ now - o.createdAt > timeoutSeconds then
      if cancelOk o.orderId then
        (o.orderId :: cancelled, kept)
      else
        (cancelled, o :: kept)
    else
      (cancelled, o :: kept)

/-- `TradeRecord` from `src/core/bot.py` (timestamp as an integer). -/
structure TradeRecord where
  ticker : String
  side : String
  action : String
  contracts : ℕ
  price : ℚ
  timestamp : ℤ
deriving DecidableEq, Repr

/-- One FIFO entry lot as `_compute_round_trips` queues it:
`{"price": ..., "remaining": ..., "side": ...}`. -/
structure EntryLot where
  price : ℚ
  remaining : ℕ
  side : String
deriving DecidableEq, Repr

/-- One element of the list `_compute_round_trips` returns. -/
structure RoundTrip where
  ticker : String
  side : String
  contracts : ℕ
  entryCost : ℚ
  exitRevenue : ℚ
  pnl : ℚ
deriving DecidableEq, Repr

/-- The inner `while exit_contracts > 0 and queue:` loop of
`_compute_round_trips`: consume entry lots oldest-first, returning the
matched cost, the matched contract count, and the remaining queue.  A lot
whose remainder reaches zero is popped; when the exit is only partially
covered by the head lot the loop ends with the head shrunk in place. -/
def consumeLots : List EntryLot → ℕ → ℚ × ℕ × List EntryLot
  | [], _ => (0, 0, [])
  | lot :: rest, n =>
    if n = 0 then
      (0, 0, lot :: rest)
    else
      let take := min n lot.remaining
      if lot.remaining - take = 0 then
        let (cost, matched, queue) := consumeLots rest (n - take)
        (lot.price * take + cost, take + matched, queue)
      else
        (lot.price * take, take, { lot with remaining := lot.remaining - take } :: rest)

/-- Append an entry lot to one ticker's FIFO queue inside the
`entry_queues` association list (`dict.setdefault(...).append(...)`). -/
def pushLot (ticker : String) (lot : EntryLot) :
    List (String × List EntryLot) → List (String × List EntryLot)
  | [] => [(ticker, [lot])]
  | (t, q) :: rest =>
    if t = ticker then
      (t, q ++ [lot]) :: rest
    else
      (t, q) :: pushLot ticker lot rest

/-- Look up one ticker's FIFO queue (`entry_queues.get(t.ticker, [])`). -/
def getQueue (ticker : String) :
    List (String × List EntryLot) → List EntryLot
  | [] => []
  | (t, q) :: rest => if t = ticker then q else getQueue ticker rest

/-- Replace one ticker's FIFO queue after an exit consumed from it. -/
def setQueue (ticker : String) (queue : List EntryLot) :
    List (String × List EntryLot) → List (String × List EntryLot)
  | [] => [(ticker, queue)]
  | (t, q) :: rest =>
    if t = ticker then
      (t, queue) :: rest
    else
      (t, q) :: setQueue ticker queue rest

/-- The body of `_compute_round_trips`' `for` loop over the
timestamp-sorted trades, threading the per-ticker FIFO queues and the
accumulated round trips. -/
def roundTripsStep (queues : List (String × List EntryLot))
    (trips : List RoundTrip) (t : TradeRecord) :
    List (String × List EntryLot) × List RoundTrip :=
  if t.action = "entry" then
    (pushLot t.ticker ⟨t.price, t.contracts, t.side⟩ queues, trips)
  else if t.action = "exit" then
    let (matchedCost, matchedContracts, queue') :=
      consumeLots (getQueue t.ticker queues) t.contracts
    let queues' := setQueue t.ticker queue' queues
    if matchedContracts > 0 then
      let revenue := t.price * (matchedContracts : ℚ)
      (queues',
        trips ++ [⟨t.ticker, t.side, matchedContracts, matchedCost, revenue,
          revenue - matchedCost⟩])
    else
      (queues', trips)
  else
    (queues, trips)

/-- Stable insertion of a trade into a timestamp-sorted list, keeping
earlier (or equal-timestamp, earlier-listed) trades first. -/
def insertByTimestamp (t : TradeRecord) :
    List TradeRecord → List TradeRecord
  | [] => [t]
  | x :: xs =>
    if x.timestamp ≤ t.timestamp then
      x :: insertByTimestamp t xs
    else
      t :: x :: xs

/-- `sorted(all_trades, key=lambda x: x.timestamp)`: Python's sort is
stable, as is this insertion sort. -/
def sortByTimestamp (trades : List TradeRecord) : List TradeRecord :=
  trades.foldl (fun acc t => insertByTimestamp t acc) []

/-- `DailyStats._compute_round_trips` from `src/core/bot.py`, also exposing
the final FIFO queues (the open, unmatched entry lots). -/
def compute_round_trips_full (trades : List TradeRecord) :
    List (String × List EntryLot) × List RoundTrip :=
  (sortByTimestamp trades).foldl
    (fun (st : List (String × List EntryLot) × List RoundTrip) t =>
      roundTripsStep st.1 st.2 t)
    ([], [])

/-- The round-trip list `_compute_round_trips` returns. -/
def compute_round_trips (trades : List TradeRecord) : List RoundTrip :=
  (compute_round_trips_full trades).2

/-- Observable pending-exit events of an `ExitHandler` run
(`src/executor/exit_handler.py`): an exit order placed for a ticker, or a
ticker removed from the pending-exit set because its position disappeared
from the authoritative read. -/
inductive ExitEvent where
  | placed (ticker : String)
  | removed (ticker : String)
deriving DecidableEq, Repr

/-- Effect of one event on a ticker set. -/
def applyEvent (s : List String) : ExitEvent → List String
  | .placed t => addTicker t s
  | .removed t => removeTicker t s

/-- Effect of an event sequence on a ticker set. -/
def applyEvents : List ExitEvent → List String → List String
  | [], s => s
  | e :: es, s => applyEvents es (applyEvent s e)

/-- The "at most one outstanding exit order per ticker" property of an event
trace: replaying it against a set of outstanding tickers, every placement
must hit a ticker not currently outstanding — i.e. between any two
placements for the same ticker there is a removal of that ticker. -/
def traceOk : List ExitEvent → List String → Bool
  | [], _ => true
  | .placed t :: es, s => (t ∉ s) && traceOk es (addTicker t s)
  | .removed t :: es, s => traceOk es (removeTicker t s)

/-- `ExitHandler.check_exits`: ask the strategy for an exit decision on
every current position whose ticker has no pending exit.  `positions` is
what `position_monitor.get_positions()` returned. -/
def check_exits (cfg : ExitSettings) (pending : List String)
    (positions : List Position) : List ExitSignal :=
  (positions.filter (fun p => p.ticker ∉ pending)).filterMap
    (evaluate_exit cfg)

/-- `ExitHandler.execute_exit`: place the exit order (`placeOk` models the
outcome of `order_manager.place_exit_order`); only on success is the ticker
added to the pending-exit set (and the placement observable emitted). -/
def execute_exit (pending : List String) (sig : ExitSignal)
    (placeOk : Bool) : List String × List ExitEvent :=
  if placeOk then
    (addTicker sig.ticker pending, [.placed sig.ticker])
  else
    (pending, [])

/-- The `for signal in signals:` loop of `ExitHandler.execute_all_exits`,
executing each signal in order. -/
def executeSignals (pending : List String) :
    List ExitSignal → (String → Bool) → List String × List ExitEvent
  | [], _ => (pending, [])
  | sig :: rest, placeOk =>
    let (pending', evs) := execute_exit pending sig (placeOk sig.ticker)
    let (pendingF, evsRest) := executeSignals pending' rest placeOk
    (pendingF, evs ++ evsRest)

/-- `ExitHandler.execute_all_exits`: first drop every pending-exit ticker
whose position has disappeared from the authoritative read
(`positionsCleanup`, the first `get_positions()` call), then run
`check_exits` against a fresh read (`positionsCheck`, the second call) and
execute the produced signals. -/
def execute_all_exits (cfg : ExitSettings) (pending : List String)
    (positionsCleanup positionsCheck : List Position)
    (placeOk : String → Bool) : List String × List ExitEvent :=
  let currentTickers := positionsCleanup.map Position.ticker
  let closed := pending.filter (· ∉ currentTickers)
  let pending1 := pending.filter (· ∈ currentTickers)
  let signals := check_exits cfg pending1 positionsCheck
  let (pendingF, placedEvs) := executeSignals pending1 signals placeOk
  (pendingF, closed.map ExitEvent.removed ++ placedEvs)

/-- `ExitHandler.force_exit`: look the position up in the authoritative read
(`get_position`, first match wins), build a manual `ExitSignal` from it, and
call `execute_exit` — with no pending-exit check. -/
def force_exit (pending : List String) (ticker : String)
    (positions : List Position) (placeOk : Bool) :
    List String × List ExitEvent :=
  match positions.find? (fun p => p.ticker = ticker) with
  | none => (pending, [])
  | some p =>
    execute_exit pending ⟨p.ticker, p.side, p.contracts, p.currentPrice,
      "manual"⟩ placeOk

/-- One `ExitHandler` operation together with the venue data it observes:
the positions each internal `get_positions()` read returns and the outcome
of each order placement. -/
inductive ExitOp where
  | checkExits (positions : List Position)
  | executeExit (sig : ExitSignal) (placeOk : Bool)
  | executeAllExits (positionsCleanup positionsCheck : List Position)
      (placeOk : String → Bool)
  | forceExit (ticker : String) (positions : List Position) (placeOk : Bool)

/-- Step the `ExitHandler` state by one operation, emitting the observable
events.  `check_exits` mutates nothing and places nothing. -/
def exitStep (cfg : ExitSettings) (pending : List String) :
    ExitOp → List String × List ExitEvent
  | .checkExits _ => (pending, [])
  | .executeExit sig placeOk => execute_exit pending sig placeOk
  | .executeAllExits posClean posCheck placeOk =>
    execute_all_exits cfg pending posClean posCheck placeOk
  | .forceExit ticker positions placeOk =>
    force_exit pending ticker positions placeOk

/-- Run a sequence of `ExitHandler` operations from a given pending-exit
set, concatenating the emitted event traces. -/
def exitRun (cfg : ExitSettings) :
    List String → List ExitOp → List String × List ExitEvent
  | pending, [] => (pending, [])
  | pending, op :: rest =>
    let (pending', evs) := exitStep cfg pending op
    let (pendingF, evsRest) := exitRun cfg pending' rest
    (pendingF, evs ++ evsRest)

/-- The operations the amended duplicate-exit claim quantifies over:
`check_exits` and `execute_all_exits` whose strategy-driving position read
contains at most one position per ticker. -/
def mainLoopOp : ExitOp → Prop
  | .checkExits _ => True
  | .executeAllExits _ posCheck _ => (posCheck.map Position.ticker).Nodup
  | .executeExit _ _ => False
  | .forceExit _ _ _ => False

/-! ### Concrete fixtures used by counterexamples and witnesses -/

/-- A zero-contract position used to exercise the zero-entry-cost branch. -/
def zeroCostPosition : Position := ⟨"KXTEST-A", .yes, 0, 50, 60, 0⟩

/-- A regular position used to exercise the dividing branch. -/
def regularPosition : Position := ⟨"KXTEST-B", .yes, 2, 40, 70, 0⟩

/-- Exit settings used by the C8 witness: 6.5% profit target, 5% stop-loss,
minimum stop-loss volume 100000 (the repository defaults). -/
def witnessExitSettings : ExitSettings := ⟨13/200, some (1/20), 100000⟩

/-- A losing, high-volume position: entered at 80c, now 60c, P&L −25%. -/
def losingPosition : Position := ⟨"KXTEST-C", .yes, 10, 80, 60, 200000⟩

/-- Sizer settings with the repository defaults: `max_position_percent`
10%, `min_contracts` 1. -/
def defaultSizerSettings : SizerSettings := ⟨1/10, 1⟩

/-- A confirmed position used by the C9 witness. -/
def confirmedPosition : Position := ⟨"KXTEST-A", .yes, 5, 70, 75, 0⟩

/-- Monitor state for the C9 witness: ticker `KXTEST-A` is both pending and
about to be confirmed; `KXTEST-D` is only pending. -/
def witnessMonitorState : MonitorState := ⟨[], ["KXTEST-A", "KXTEST-D"]⟩

/-- Filter settings for the C3 witness: category check passes everything,
no liquidity threshold, probability band `[0.80, 0.90]` (the repository
defaults). -/
def witnessFilterSettings : FilterSettings := ⟨fun _ => true, 0, 4/5, 9/10⟩

/-- An in-band market: yes bid 85c, yes ask 86c. -/
def witnessMarket : Market :=
  ⟨"KXGAME-X", 85, 15, some 85, some 86, some 14, some 15, 1000⟩

/-- An orderbook for `witnessMarket`: one yes-bid level at 85c × 10, one
yes-ask level at 86c × 5. -/
def witnessOrderBook : OrderBook := ⟨[⟨85, 10⟩], [⟨86, 5⟩], [], []⟩

/-- The opportunity `evaluate` produces on the witness fixture. -/
def witnessOpportunity : MarketOpportunity :=
  ⟨witnessMarket, witnessOrderBook, .yes, 86, 1280, 86/100⟩

/-- A wide-spread market: the yes bid (85c) is in band, but the only ask is
the market-quoted 95c, above the 90c cap. -/
def wideSpreadMarket : Market :=
  ⟨"KXGAME-Y", 85, 15, some 85, some 95, none, none, 1000⟩

/-- A market carrying only a ticker, for the scanner witness. -/
def mkSimpleMarket (t : String) : Market :=
  ⟨t, 85, 15, none, none, none, none, 0⟩

/-- A pipeline that accepts every market, for the scanner witness. -/
def acceptAllEval : Market → Option MarketOpportunity :=
  fun m => some ⟨m, ⟨[], [], [], []⟩, .yes, 86, 0, 86/100⟩

/-- Existing exposure for the scanner witness: one side of game 1. -/
def scanWitnessExisting : List String := ["KXGAME-1-A"]

/-- Markets seen by the scanner witness: the other side of game 1 and both
sides of game 2. -/
def scanWitnessMarkets : List Market :=
  [mkSimpleMarket "KXGAME-1-B", mkSimpleMarket "KXGAME-2-A",
    mkSimpleMarket "KXGAME-2-B"]

/-- A position used by the duplicate-exit scenarios. -/
def dupPosition : Position := ⟨"KXGAME-3-A", .yes, 5, 80, 85, 0⟩

/-- Two consecutive `force_exit` calls for the same ticker while its
position is still present and placement succeeds. -/
def dupOps : List ExitOp :=
  [.forceExit "KXGAME-3-A" [dupPosition] true,
    .forceExit "KXGAME-3-A" [dupPosition] true]

/-- A main-loop schedule for the C1 witness: one empty `check_exits` pass,
then a full `execute_all_exits` cycle over `dupPosition`. -/
def mainLoopOps : List ExitOp :=
  [.checkExits [], .executeAllExits [dupPosition] [dupPosition]
    (fun _ => true)]

/-! ## Theorems -/

/-- C10: `Position.unrealized_pnl_percent` is total — when the entry cost
(`average_entry_price × contracts`) is zero it returns `0` instead of
dividing by zero, and otherwise it is the P&L over the entry cost, so exit
evaluation and P&L reporting never fault on a zero-cost position. -/
theorem C10_pnl_percent_total (p : Position) :
    (p.entry_cost = 0 → p.unrealized_pnl_percent = 0) ∧
    (p.entry_cost ≠ 0 →
      p.unrealized_pnl_percent = p.unrealized_pnl / p.entry_cost) := by
  constructor <;> intro h <;>
    simp [Position.unrealized_pnl_percent, h]

theorem C10_pnl_percent_total_witness :
    zeroCostPosition.unrealized_pnl_percent = 0 ∧
    regularPosition.unrealized_pnl_percent =
      regularPosition.unrealized_pnl / regularPosition.entry_cost :=
  ⟨(C10_pnl_percent_total zeroCostPosition).1
      (by norm_num [zeroCostPosition, Position.entry_cost]),
    (C10_pnl_percent_total regularPosition).2
      (by norm_num [regularPosition, Position.entry_cost])⟩

/-- C5: `PositionMonitor.get_positions` treats an empty successful venue
read as ground truth — it returns `[]` (no fills-based fallback) and
records `[]` as the last snapshot — while a raising read returns the last
successfully fetched snapshot with the state untouched. -/
theorem C5_get_positions_empty_truth_error_stale (st : MonitorState) :
    ((get_positions st (some [])).1 = [] ∧
      (get_positions st (some [])).2.lastPositions = []) ∧
    get_positions st none = (st.lastPositions, st) := by
  simp [get_positions]

/-- C7: `OrderManager.cancel_stale_orders` returns exactly the ids of the
tracked orders that are `open`, strictly older than the timeout, and whose
venue cancellation succeeded — dropping exactly those from tracking, while
younger open orders, non-open orders, and orders whose cancellation failed
remain tracked in order, unchanged. -/
theorem C7_cancel_stale_orders_exact (timeout now : ℤ)
    (cancelOk : String → Bool) (orders : List TrackedOrder) :
    cancel_stale_orders timeout now cancelOk orders =
      ((orders.filter (fun o =>
          o.status = .open ∧ now - o.createdAt > timeout ∧
            cancelOk o.orderId)).map TrackedOrder.orderId,
        orders.filter (fun o =>
          ¬(o.status = .open ∧ now - o.createdAt > timeout ∧
            cancelOk o.orderId))) := by
  induction orders with
  | nil => rfl
  | cons o rest ih =>
    simp only [cancel_stale_orders, ih, List.filter_cons]
    by_cases hstale : o.status = .open ∧ now - o.createdAt > timeout
    · by_cases hok : cancelOk o.orderId
      · simp [hstale, hok]
      · simp [hstale, hok]
    · have hfull : ¬(o.status = .open ∧ now - o.createdAt > timeout ∧
          cancelOk o.orderId = true) :=
        fun ⟨a, b, _⟩ => hstale ⟨a, b⟩
      simp [hstale, hfull]

/-- C8: `HighProbabilityStrategy.evaluate_exit` fires a `profit_target`
signal whenever the unrealized P&L fraction reaches the profit target (that
rule taking priority); below the target it fires a `stop_loss` signal
exactly when a stop-loss is configured, the P&L is at or below its negation,
and the position's market volume reaches `stop_loss_min_volume`; in every
other case it returns nothing, so low-volume positions never trigger the
stop-loss.  The hypothesis reflects the settings validator
(`stop_loss_percent` is `≥ 0.01` when present). -/
theorem C8_evaluate_exit_two_rules (cfg : ExitSettings) (p : Position)
    (hsl : ∀ sl, cfg.stopLoss = some sl → 0 < sl) :
    (p.unrealized_pnl_percent ≥ cfg.profitTarget →
      evaluate_exit cfg p =
        some ⟨p.ticker, p.side, p.contracts, p.currentPrice,
          "profit_target"⟩) ∧
    (p.unrealized_pnl_percent < cfg.profitTarget →
      ∀ sl, cfg.stopLoss = some sl →
        p.unrealized_pnl_percent ≤ -sl →
        p.volume ≥ cfg.stopLossMinVolume →
        evaluate_exit cfg p =
          some ⟨p.ticker, p.side, p.contracts, p.currentPrice,
            "stop_loss"⟩) ∧
    (p.unrealized_pnl_percent < cfg.profitTarget →
      (cfg.stopLoss = none ∨
        ∃ sl, cfg.stopLoss = some sl ∧
          (-sl < p.unrealized_pnl_percent ∨
            p.volume < cfg.stopLossMinVolume)) →
      evaluate_exit cfg p = none) := by
  refine ⟨?_, ?_, ?_⟩
  · intro h
    simp [evaluate_exit, h]
  · intro hlt sl hs hle hvol
    have hne : sl ≠ 0 := ne_of_gt (hsl sl hs)
    simp [evaluate_exit, not_le.mpr hlt, hs, hne, hle, hvol]
  · intro hlt hcase
    rcases hcase with hnone | ⟨sl, hs, hor⟩
    · simp [evaluate_exit, not_le.mpr hlt, hnone]
    · rcases hor with hgt | hvol
      · simp [evaluate_exit, not_le.mpr hlt, hs, not_le.mpr hgt]
      · simp [evaluate_exit, not_le.mpr hlt, hs, not_le.mpr hvol]

theorem C8_evaluate_exit_two_rules_witness :
    (∀ sl, witnessExitSettings.stopLoss = some sl → 0 < sl) ∧
    (losingPosition.unrealized_pnl_percent <
        witnessExitSettings.profitTarget ∧
      evaluate_exit witnessExitSettings losingPosition =
        some ⟨losingPosition.ticker, losingPosition.side,
          losingPosition.contracts, losingPosition.currentPrice,
          "stop_loss"⟩) := by
  have hsl : ∀ sl, witnessExitSettings.stopLoss = some sl → 0 < sl := by
    intro sl h
    simp only [witnessExitSettings] at h
    cases h
    norm_num
  have hlt : losingPosition.unrealized_pnl_percent <
      witnessExitSettings.profitTarget := by
    norm_num [losingPosition, witnessExitSettings,
      Position.unrealized_pnl_percent, Position.unrealized_pnl,
      Position.entry_cost, Position.current_value]
  refine ⟨hsl, hlt, ?_⟩
  exact (C8_evaluate_exit_two_rules witnessExitSettings losingPosition
      hsl).2.1 hlt (1/20) rfl
    (by norm_num [losingPosition, witnessExitSettings,
      Position.unrealized_pnl_percent, Position.unrealized_pnl,
      Position.entry_cost, Position.current_value])
    (by norm_num [losingPosition, witnessExitSettings])

/-- C2 counterexample: with the default settings (10% cap, minimum 1
contract), a 100-cent portfolio and a 90-cent entry price give a max spend
of 10 cents, so the unclamped count floors to 0 and the `min_contracts`
floor returns 1 contract — whose notional, 90 cents, exceeds
`max_position_pct × portfolio_value = 10` cents.  The "never exceeds the
cap" half of the claim is therefore false as stated. -/
theorem C2_cap_counterexample :
    calculate_contracts defaultSizerSettings 100 90 = 1 ∧
    ¬((calculate_contracts defaultSizerSettings 100 90 : ℚ) * 90 ≤
        defaultSizerSettings.maxPositionPct * 100) := by
  have h : calculate_contracts defaultSizerSettings 100 90 = 1 := by
    norm_num [calculate_contracts, defaultSizerSettings, truncToInt]
  refine ⟨h, ?_⟩
  rw [h]
  norm_num [defaultSizerSettings]

/-- C2 amended: `calculate_contracts` always returns at least
`min_contracts`, returns exactly `min_contracts` on degenerate inputs, and
its notional respects the `max_position_pct × portfolio_value` cap whenever
the cap-derived (floored) contract count is itself at least
`min_contracts`; when that count falls below the minimum, the
`min_contracts` floor wins and the cap can be exceeded. -/
theorem C2_sizer_bounds (cfg : SizerSettings) (pv price : ℚ)
    (hmin : 1 ≤ cfg.minContracts) :
    cfg.minContracts ≤ calculate_contracts cfg pv price ∧
    (pv ≤ 0 ∨ price ≤ 0 →
      calculate_contracts cfg pv price = cfg.minContracts) ∧
    (0 < pv → 0 < price →
      cfg.minContracts ≤ ⌊pv * cfg.maxPositionPct / price⌋ →
      (calculate_contracts cfg pv price : ℚ) * price ≤
        cfg.maxPositionPct * pv) := by
  refine ⟨?_, ?_, ?_⟩
  · unfold calculate_contracts
    split_ifs with h
    · exact le_refl _
    · exact le_max_right _ _
  · intro h
    simp [calculate_contracts, h]
  · intro hpv hprice hfl
    have hdeg : ¬(pv ≤ 0 ∨ price ≤ 0) := by
      push_neg
      exact ⟨hpv, hprice⟩
    have hq : (0 : ℚ) ≤ pv * cfg.maxPositionPct / price := by
      have h1 : (1 : ℚ) ≤ (⌊pv * cfg.maxPositionPct / price⌋ : ℚ) := by
        exact_mod_cast le_trans hmin hfl
      have := Int.floor_le (pv * cfg.maxPositionPct / price)
      linarith
    have htr : truncToInt (pv * cfg.maxPositionPct / price) =
        ⌊pv * cfg.maxPositionPct / price⌋ := by
      simp [truncToInt, hq]
    have hcalc : calculate_contracts cfg pv price =
        ⌊pv * cfg.maxPositionPct / price⌋ := by
      simp only [calculate_contracts, if_neg hdeg, htr]
      exact max_eq_left hfl
    rw [hcalc]
    have hle : (⌊pv * cfg.maxPositionPct / price⌋ : ℚ) ≤
        pv * cfg.maxPositionPct / price := Int.floor_le _
    have := mul_le_mul_of_nonneg_right hle (le_of_lt hprice)
    calc (⌊pv * cfg.maxPositionPct / price⌋ : ℚ) * price
        ≤ pv * cfg.maxPositionPct / price * price := this
      _ = cfg.maxPositionPct * pv := by
          field_simp
          ring

theorem C2_sizer_bounds_witness :
    (1 ≤ defaultSizerSettings.minContracts) ∧
    (defaultSizerSettings.minContracts ≤
        calculate_contracts defaultSizerSettings 1000 50 ∧
      ((0 : ℚ) < 1000 → (0 : ℚ) < 50 →
        defaultSizerSettings.minContracts ≤
          ⌊(1000 : ℚ) * defaultSizerSettings.maxPositionPct / 50⌋ →
        (calculate_contracts defaultSizerSettings 1000 50 : ℚ) * 50 ≤
          defaultSizerSettings.maxPositionPct * 1000)) :=
  ⟨by norm_num [defaultSizerSettings],
    (C2_sizer_bounds defaultSizerSettings 1000 50
        (by norm_num [defaultSizerSettings])).1,
    (C2_sizer_bounds defaultSizerSettings 1000 50
        (by norm_num [defaultSizerSettings])).2.2⟩

/-- C9: `PositionMonitor.count_positions` counts each ticker at most once —
on a successful read whose tickers are pairwise distinct the count is the
cardinality of confirmed tickers united with pending-entry tickers, so a
ticker that is both confirmed and pending contributes 1, not 2 — and a
successful `get_positions` call removes every confirmed ticker from the
pending-entry set.  (The Python pending set is duplicate-free by
construction, whence the `Nodup` hypothesis on its list model.) -/
theorem C9_count_positions_no_double_count (st : MonitorState)
    (ps : List Position) (hp : (ps.map Position.ticker).Nodup)
    (he : st.pendingEntry.Nodup) :
    count_positions st (some ps) =
      ((ps.map Position.ticker).toFinset ∪ st.pendingEntry.toFinset).card ∧
    ∀ t ∈ (get_positions st (some ps)).2.pendingEntry,
      t ∉ ps.map Position.ticker := by
  constructor
  · have hcount : count_positions st (some ps) =
        ps.length +
          (st.pendingEntry.filter
            (· ∉ ps.map Position.ticker)).length := by
      simp [count_positions, get_positions, List.filter_filter]
    rw [hcount]
    have hlen : ps.length = (ps.map Position.ticker).toFinset.card := by
      rw [List.toFinset_card_of_nodup hp, List.length_map]
    have hfilt : (st.pendingEntry.filter
          (· ∉ ps.map Position.ticker)).length =
        (st.pendingEntry.toFinset \
          (ps.map Position.ticker).toFinset).card := by
      rw [← List.toFinset_card_of_nodup (he.filter _)]
      congr 1
      rw [List.toFinset_filter, Finset.sdiff_eq_filter]
      apply Finset.filter_congr
      intro x _
      simp
    rw [hlen, hfilt, Finset.union_comm]
    have := Finset.card_sdiff_add_card st.pendingEntry.toFinset
      (ps.map Position.ticker).toFinset
    omega
  · intro t ht
    simp only [get_positions, List.mem_filter] at ht
    simpa using ht.2

theorem C9_count_positions_no_double_count_witness :
    (([confirmedPosition].map Position.ticker).Nodup ∧
      witnessMonitorState.pendingEntry.Nodup) ∧
    count_positions witnessMonitorState (some [confirmedPosition]) =
      (([confirmedPosition].map Position.ticker).toFinset ∪
        witnessMonitorState.pendingEntry.toFinset).card :=
  ⟨⟨by simp [confirmedPosition], by simp [witnessMonitorState]⟩,
    (C9_count_positions_no_double_count witnessMonitorState
      [confirmedPosition] (by simp [confirmedPosition])
      (by simp [witnessMonitorState])).1⟩

/-- C6: FIFO reconciliation on the spec's fixture — entries of 10 contracts
at 40c then 5 at 50c on ticker `A`, then an exit of 12 at 70c, with
increasing timestamps — matches the exit oldest-first: matched cost
`10×40 + 2×50 = 500` cents, revenue `12×70 = 840` cents, realized P&L `340`
cents, and 3 contracts remain open in the queue at a 50c cost basis. -/
theorem C6_fifo_round_trip (t1 t2 t3 : ℤ) (h12 : t1 < t2) (h23 : t2 < t3) :
    compute_round_trips_full
        [⟨"A", "yes", "entry", 10, 40, t1⟩,
          ⟨"A", "yes", "entry", 5, 50, t2⟩,
          ⟨"A", "yes", "exit", 12, 70, t3⟩] =
      ([("A", [⟨50, 3, "yes"⟩])],
        [⟨"A", "yes", 12, 500, 840, 340⟩]) := by
  have hs : sortByTimestamp
      [⟨"A", "yes", "entry", 10, 40, t1⟩,
        ⟨"A", "yes", "entry", 5, 50, t2⟩,
        ⟨"A", "yes", "exit", 12, 70, t3⟩] =
      [⟨"A", "yes", "entry", 10, 40, t1⟩,
        ⟨"A", "yes", "entry", 5, 50, t2⟩,
        ⟨"A", "yes", "exit", 12, 70, t3⟩] := by
    simp [sortByTimestamp, insertByTimestamp, le_of_lt h12, le_of_lt h23,
      le_of_lt (lt_trans h12 h23)]
  rw [compute_round_trips_full, hs]
  norm_num [roundTripsStep, pushLot, getQueue, setQueue, consumeLots]
  decide

theorem C6_fifo_round_trip_witness :
    (1 : ℤ) < 2 ∧ (2 : ℤ) < 3 ∧
    compute_round_trips_full
        [⟨"A", "yes", "entry", 10, 40, 1⟩,
          ⟨"A", "yes", "entry", 5, 50, 2⟩,
          ⟨"A", "yes", "exit", 12, 70, 3⟩] =
      ([("A", [⟨50, 3, "yes"⟩])],
        [⟨"A", "yes", 12, 500, 840, 340⟩]) :=
  ⟨by norm_num, by norm_num,
    C6_fifo_round_trip 1 2 3 (by norm_num) (by norm_num)⟩

/-- C3: whenever `MarketFilters.evaluate` accepts a market, the resulting
opportunity's entry price — the best ask on the recommended side with the
market-quoted ask as fallback — lies in `[1, 90]` and its implied
probability `entry_price / 100` lies in the configured band; and `evaluate`
rejects whenever the bid screen recommended a side but no ask exists there,
the ask exceeds 90, the ask lies outside `[1, 99]`, or the ask-derived
probability leaves the band — even though the bid-derived probability
passed. -/
theorem C3_evaluate_entry_price_bounds (cfg : FilterSettings) (m : Market)
    (ob : OrderBook) :
    (∀ opp, evaluate cfg m ob = some opp →
      1 ≤ opp.entryPrice ∧ opp.entryPrice ≤ 90 ∧
      cfg.probabilityThreshold ≤ opp.entryPrice / 100 ∧
      opp.entryPrice / 100 ≤ cfg.maxProbabilityThreshold ∧
      get_entry_price m ob opp.recommendedSide = some opp.entryPrice) ∧
    (∀ side, passes_probability cfg m = some side →
      (get_entry_price m ob side = none → evaluate cfg m ob = none) ∧
      (∀ e, get_entry_price m ob side = some e →
        e > 90 ∨ e < 1 ∨ e ≥ 100 ∨
          ¬(cfg.probabilityThreshold ≤ e / 100 ∧
            e / 100 ≤ cfg.maxProbabilityThreshold) →
        evaluate cfg m ob = none)) := by
  constructor
  · intro opp h
    unfold evaluate at h
    split at h
    · exact absurd h (by simp)
    split at h
    · exact absurd h (by simp)
    split at h
    · exact absurd h (by simp)
    rename_i side hside
    split at h
    · exact absurd h (by simp)
    rename_i e he
    split at h
    · exact absurd h (by simp)
    rename_i h90
    split at h
    · exact absurd h (by simp)
    rename_i hdom
    dsimp only at h
    split at h
    · exact absurd h (by simp)
    rename_i hband
    push_neg at h90 hdom hband
    rw [Option.some_inj] at h
    subst h
    exact ⟨hdom.2, h90, hband.1, hband.2, he⟩
  · intro side hside
    by_cases hcat : cfg.passesCategory m
    · by_cases hliq : passes_liquidity cfg m ob
      · constructor
        · intro hnone
          simp [evaluate, hcat, hliq, hside, hnone]
        · intro e he hbad
          rcases hbad with h | h | h | h
          · simp [evaluate, hcat, hliq, hside, he, h]
          · by_cases h90 : e > 90
            · simp [evaluate, hcat, hliq, hside, he, h90]
            · simp [evaluate, hcat, hliq, hside, he, h90, le_of_lt h,
                Or.inr h]
          · have h90 : e > 90 := by linarith
            simp [evaluate, hcat, hliq, hside, he, h90]
          · by_cases h90 : e > 90
            · simp [evaluate, hcat, hliq, hside, he, h90]
            · by_cases hdom : e ≥ 100 ∨ e < 1
              · simp [evaluate, hcat, hliq, hside, he, h90, hdom]
              · simp [evaluate, hcat, hliq, hside, he, h90, hdom, h]
      · constructor <;> intro _ <;> simp [evaluate, hcat, hliq]
    · constructor <;> intro _ <;> simp [evaluate, hcat]

theorem C3_evaluate_entry_price_bounds_witness :
    (evaluate witnessFilterSettings witnessMarket witnessOrderBook =
        some witnessOpportunity ∧
      1 ≤ witnessOpportunity.entryPrice ∧
      witnessOpportunity.entryPrice ≤ 90 ∧
      witnessFilterSettings.probabilityThreshold ≤
        witnessOpportunity.entryPrice / 100 ∧
      witnessOpportunity.entryPrice / 100 ≤
        witnessFilterSettings.maxProbabilityThreshold) ∧
    (passes_probability witnessFilterSettings wideSpreadMarket =
        some .yes ∧
      evaluate witnessFilterSettings wideSpreadMarket ⟨[], [], [], []⟩ =
        none) := by
  have heval : evaluate witnessFilterSettings witnessMarket
      witnessOrderBook = some witnessOpportunity := by
    norm_num [evaluate, passes_liquidity, passes_probability,
      get_entry_price, OrderBook.calculate_liquidity,
      OrderBook.sideLiquidity, OrderBook.bestBuyPrice,
      Market.has_liquidity, witnessFilterSettings, witnessMarket,
      witnessOrderBook, witnessOpportunity]
  have hside : passes_probability witnessFilterSettings wideSpreadMarket =
      some .yes := by
    norm_num [passes_probability, witnessFilterSettings, wideSpreadMarket]
  have he : get_entry_price wideSpreadMarket ⟨[], [], [], []⟩ .yes =
      some 95 := by
    norm_num [get_entry_price, OrderBook.bestBuyPrice, wideSpreadMarket]
  have hbounds := (C3_evaluate_entry_price_bounds witnessFilterSettings
    witnessMarket witnessOrderBook).1 witnessOpportunity heval
  have hnone := ((C3_evaluate_entry_price_bounds witnessFilterSettings
    wideSpreadMarket ⟨[], [], [], []⟩).2 .yes hside).2 95 he
    (Or.inl (by norm_num))
  exact ⟨⟨heval, hbounds.1, hbounds.2.1, hbounds.2.2.1, hbounds.2.2.2.1⟩,
    hside, hnone⟩

/-- Membership in the set-flavoured insert. -/
theorem mem_addTicker (t' t : String) (s : List String) :
    t' ∈ addTicker t s ↔ t' = t ∨ t' ∈ s := by
  unfold addTicker
  split_ifs with h
  · constructor
    · exact Or.inr
    · rintro (rfl | hm)
      · exact h
      · exact hm
  · simp

/-- Invariants of a scanner run from an arbitrary dedup state: every
accepted market's ticker and event prefix are fresh relative to the
starting state, accepted markets have pairwise distinct event prefixes, and
the dedup state only grows. -/
theorem scanRun_spec (evalM : Market → Option MarketOpportunity)
    (ms : List Market) : ∀ st : ScanState,
    (∀ a ∈ (scanRun evalM ms st).1,
      a.ticker ∉ st.positions ∧ eventPrefix a.ticker ∉ st.events) ∧
    List.Pairwise (fun a b => eventPrefix a.ticker ≠ eventPrefix b.ticker)
      (scanRun evalM ms st).1 ∧
    (∀ x, x ∈ st.positions → x ∈ (scanRun evalM ms st).2.positions) ∧
    (∀ x, x ∈ st.events → x ∈ (scanRun evalM ms st).2.events) := by
  induction ms with
  | nil =>
    intro st
    simp [scanRun]
  | cons m ms ih =>
    intro st
    by_cases h1 : m.ticker ∈ st.positions
    · simpa [scanRun, h1] using ih st
    · by_cases h2 : eventPrefix m.ticker ∈ st.events
      · simpa [scanRun, h1, h2] using ih st
      · rcases heval : evalM m with _ | opp
        · simpa [scanRun, h1, h2, heval] using ih st
        · have hrun : scanRun evalM (m :: ms) st =
              (m :: (scanRun evalM ms
                  ⟨addTicker m.ticker st.positions,
                    addTicker (eventPrefix m.ticker) st.events⟩).1,
                (scanRun evalM ms
                  ⟨addTicker m.ticker st.positions,
                    addTicker (eventPrefix m.ticker) st.events⟩).2) := by
            simp [scanRun, h1, h2, heval]
          obtain ⟨ihFresh, ihPair, ihPos, ihEv⟩ :=
            ih ⟨addTicker m.ticker st.positions,
              addTicker (eventPrefix m.ticker) st.events⟩
          rw [hrun]
          refine ⟨?_, ?_, ?_, ?_⟩
          · intro a ha
            rcases List.mem_cons.mp ha with rfl | ha'
            · exact ⟨h1, h2⟩
            · obtain ⟨hpos, hev⟩ := ihFresh a ha'
              constructor
              · intro hmem
                exact hpos ((mem_addTicker _ _ _).mpr (Or.inr hmem))
              · intro hmem
                exact hev ((mem_addTicker _ _ _).mpr (Or.inr hmem))
          · refine List.pairwise_cons.mpr ⟨?_, ihPair⟩
            intro b hb hEq
            exact (ihFresh b hb).2
              (hEq ▸ (mem_addTicker _ _ _).mpr (Or.inl rfl))
          · intro x hx
            exact ihPos x ((mem_addTicker _ _ _).mpr (Or.inr hx))
          · intro x hx
            exact ihEv x ((mem_addTicker _ _ _).mpr (Or.inr hx))

/-- C4: within one scanner run, no two yielded markets share an event
prefix, and no yielded market's ticker equals a ticker passed into
`set_existing_positions` nor has an event prefix equal to the prefix of any
such ticker — because accepted tickers and prefixes are recorded in the
dedup sets immediately on acceptance.  The per-market evaluation pipeline
is arbitrary (`evalM`), so the invariant holds for every behaviour of the
category/quick-filter/orderbook/evaluate stages. -/
theorem C4_scan_dedup (evalM : Market → Option MarketOpportunity)
    (existingTickers : List String) (ms : List Market) :
    (∀ a ∈ (scanRun evalM ms (setExistingPositions existingTickers)).1,
      a.ticker ∉ existingTickers ∧
      eventPrefix a.ticker ∉ existingTickers.map eventPrefix) ∧
    List.Pairwise (fun a b => eventPrefix a.ticker ≠ eventPrefix b.ticker)
      (scanRun evalM ms (setExistingPositions existingTickers)).1 := by
  obtain ⟨hFresh, hPair, -, -⟩ :=
    scanRun_spec evalM ms (setExistingPositions existingTickers)
  exact ⟨hFresh, hPair⟩

theorem C4_scan_dedup_witness :
    mkSimpleMarket "KXGAME-2-A" ∈
      (scanRun acceptAllEval scanWitnessMarkets
        (setExistingPositions scanWitnessExisting)).1 ∧
    ((mkSimpleMarket "KXGAME-2-A").ticker ∉ scanWitnessExisting ∧
      eventPrefix (mkSimpleMarket "KXGAME-2-A").ticker ∉
        scanWitnessExisting.map eventPrefix) := by
  have hrun : (scanRun acceptAllEval scanWitnessMarkets
      (setExistingPositions scanWitnessExisting)).1 =
      [mkSimpleMarket "KXGAME-2-A"] := rfl
  have hmem : mkSimpleMarket "KXGAME-2-A" ∈
      (scanRun acceptAllEval scanWitnessMarkets
        (setExistingPositions scanWitnessExisting)).1 := by
    rw [hrun]
    exact List.mem_singleton.mpr rfl
  exact ⟨hmem,
    (C4_scan_dedup acceptAllEval scanWitnessExisting
      scanWitnessMarkets).1 _ hmem⟩

/-- C1 counterexample: `force_exit` calls `execute_exit` without consulting
the pending-exit set, so two `force_exit` calls for the same ticker — its
position still present in the authoritative read, both placements
succeeding — place two exit orders for that ticker with no intervening
removal from the pending-exit set.  The invariant quantified over *every*
sequence of handler operations is therefore false as stated. -/
theorem C1_counterexample_force_exit :
    (exitRun witnessExitSettings [] dupOps).2 =
      [.placed "KXGAME-3-A", .placed "KXGAME-3-A"] ∧
    traceOk (exitRun witnessExitSettings [] dupOps).2 [] = false :=
  ⟨rfl, rfl⟩

/-- Membership in the set-flavoured removal. -/
theorem mem_removeTicker (x t : String) (s : List String) :
    x ∈ removeTicker t s ↔ x ∈ s ∧ x ≠ t := by
  simp [removeTicker]

/-- `applyEvents` distributes over trace concatenation. -/
theorem applyEvents_append (es₁ es₂ : List ExitEvent) :
    ∀ s, applyEvents (es₁ ++ es₂) s = applyEvents es₂ (applyEvents es₁ s) := by
  induction es₁ with
  | nil => intro s; rfl
  | cons e es ih => intro s; simp [applyEvents, ih]

/-- `traceOk` splits over trace concatenation. -/
theorem traceOk_append (es₁ es₂ : List ExitEvent) :
    ∀ s, traceOk (es₁ ++ es₂) s =
      (traceOk es₁ s && traceOk es₂ (applyEvents es₁ s)) := by
  induction es₁ with
  | nil => intro s; simp [traceOk, applyEvents]
  | cons e es ih =>
    intro s
    cases e with
    | placed t =>
      simp only [List.cons_append, traceOk, applyEvents, applyEvent,
        List.append_eq, ih, Bool.and_assoc]
    | removed t =>
      simp only [List.cons_append, traceOk, applyEvents, applyEvent,
        List.append_eq, ih]

/-- A pure-removal trace is always admissible. -/
theorem traceOk_removes (ts : List String) :
    ∀ s, traceOk (ts.map ExitEvent.removed) s = true := by
  induction ts with
  | nil => intro s; rfl
  | cons t ts ih => intro s; simpa [traceOk] using ih (removeTicker t s)

/-- Replaying a pure-removal trace removes exactly those tickers. -/
theorem applyEvents_removes (ts : List String) :
    ∀ s x, x ∈ applyEvents (ts.map ExitEvent.removed) s ↔
      x ∈ s ∧ x ∉ ts := by
  induction ts with
  | nil => intro s x; simp [applyEvents]
  | cons t ts ih =>
    intro s x
    simp only [List.map_cons, applyEvents, applyEvent, ih,
      mem_removeTicker, List.mem_cons]
    constructor
    · rintro ⟨⟨hs, hne⟩, hnot⟩
      exact ⟨hs, by rintro (rfl | hmem) <;> [exact hne rfl; exact hnot hmem]⟩
    · rintro ⟨hs, hnot⟩
      exact ⟨⟨hs, fun h => hnot (Or.inl h)⟩, fun h => hnot (Or.inr h)⟩

/-- The exit signal `evaluate_exit` emits carries the position's ticker. -/
theorem evaluate_exit_ticker (cfg : ExitSettings) (p : Position)
    (sig : ExitSignal) (h : evaluate_exit cfg p = some sig) :
    sig.ticker = p.ticker := by
  simp only [evaluate_exit] at h
  by_cases h1 : p.unrealized_pnl_percent ≥ cfg.profitTarget
  · rw [if_pos h1, Option.some_inj] at h
    subst h
    rfl
  · rw [if_neg h1] at h
    cases hsl : cfg.stopLoss with
    | none =>
      rw [hsl] at h
      cases h
    | some sl =>
      rw [hsl] at h
      dsimp only at h
      by_cases h2 : sl ≠ 0 ∧ p.unrealized_pnl_percent ≤ -sl
      · rw [if_pos h2] at h
        by_cases h3 : p.volume ≥ cfg.stopLossMinVolume
        · rw [if_pos h3, Option.some_inj] at h
          subst h
          rfl
        · rw [if_neg h3] at h
          cases h
      · rw [if_neg h2] at h
        cases h

/-- The tickers of the signals produced from a position list embed into the
position tickers in order. -/
theorem filterMap_evaluate_tickers (cfg : ExitSettings) :
    ∀ l : List Position,
      ((l.filterMap (evaluate_exit cfg)).map ExitSignal.ticker).Sublist
        (l.map Position.ticker) := by
  intro l
  induction l with
  | nil => simp
  | cons p ps ih =>
    cases h : evaluate_exit cfg p with
    | none =>
      simpa [List.filterMap_cons, h] using ih.cons p.ticker
    | some sig =>
      simpa [List.filterMap_cons, h, evaluate_exit_ticker cfg p sig h]
        using ih.cons₂ p.ticker

/-- Signals produced by `check_exits` name tickers with no pending exit
that occur among the checked positions. -/
theorem check_exits_fresh (cfg : ExitSettings) (pending : List String)
    (positions : List Position) :
    ∀ sig ∈ check_exits cfg pending positions, sig.ticker ∉ pending := by
  intro sig hsig
  obtain ⟨p, hp, heval⟩ := List.mem_filterMap.mp hsig
  obtain ⟨-, hfresh⟩ := List.mem_filter.mp hp
  rw [evaluate_exit_ticker cfg p sig heval]
  simpa using hfresh

/-- The tickers of `check_exits`' signals embed into the checked positions'
tickers, so they are pairwise distinct whenever the latter are. -/
theorem check_exits_tickers_sublist (cfg : ExitSettings)
    (pending : List String) (positions : List Position) :
    ((check_exits cfg pending positions).map ExitSignal.ticker).Sublist
      (positions.map Position.ticker) :=
  (filterMap_evaluate_tickers cfg _).trans
    ((List.filter_sublist _).map Position.ticker)

/-- Executing signals with pairwise-distinct tickers, none of which has a
pending exit, emits an admissible trace, and replaying that trace tracks
the resulting pending-exit set up to membership. -/
theorem executeSignals_spec (placeOk : String → Bool) :
    ∀ (sigs : List ExitSignal) (pending S : List String),
      (∀ x, x ∈ S ↔ x ∈ pending) →
      (sigs.map ExitSignal.ticker).Nodup →
      (∀ sig ∈ sigs, sig.ticker ∉ pending) →
      traceOk (executeSignals pending sigs placeOk).2 S = true ∧
      (∀ x, x ∈ applyEvents (executeSignals pending sigs placeOk).2 S ↔
        x ∈ (executeSignals pending sigs placeOk).1) := by
  intro sigs
  induction sigs with
  | nil =>
    intro pending S hmem _ _
    exact ⟨rfl, hmem⟩
  | cons sig rest ih =>
    intro pending S hmem hnodup hfresh
    by_cases hok : placeOk sig.ticker
    · have hstep : executeSignals pending (sig :: rest) placeOk =
          ((executeSignals (addTicker sig.ticker pending) rest placeOk).1,
            .placed sig.ticker ::
              (executeSignals (addTicker sig.ticker pending) rest
                placeOk).2) := by
        simp [executeSignals, execute_exit, hok]
      have hmem' : ∀ x, x ∈ addTicker sig.ticker S ↔
          x ∈ addTicker sig.ticker pending := by
        intro x
        rw [mem_addTicker, mem_addTicker, hmem]
      have hfresh' : ∀ s ∈ rest, s.ticker ∉ addTicker sig.ticker pending := by
        intro s hs hmem''
        rcases (mem_addTicker _ _ _).mp hmem'' with hEq | hpend
        · have : sig.ticker ∉ rest.map ExitSignal.ticker :=
            (List.nodup_cons.mp hnodup).1
          exact this (hEq ▸ List.mem_map_of_mem ExitSignal.ticker hs)
        · exact hfresh s (List.mem_cons_of_mem sig hs) hpend
      obtain ⟨ihOk, ihMem⟩ := ih (addTicker sig.ticker pending)
        (addTicker sig.ticker S) hmem' (List.nodup_cons.mp hnodup).2 hfresh'
      rw [hstep]
      constructor
      · have hnotS : sig.ticker ∉ S := fun hs =>
          hfresh sig (List.mem_cons_self sig rest) ((hmem _).mp hs)
        simpa [traceOk, hnotS] using ihOk
      · intro x
        simpa [applyEvents, applyEvent] using ihMem x
    · have hstep : executeSignals pending (sig :: rest) placeOk =
          executeSignals pending rest placeOk := by
        simp [executeSignals, execute_exit, hok]
      rw [hstep]
      exact ih pending S hmem (List.nodup_cons.mp hnodup).2
        (fun s hs => hfresh s (List.mem_cons_of_mem sig hs))

/-- One `execute_all_exits` cycle started from a pending set whose
strategy-driving position read has pairwise-distinct tickers emits an
admissible trace, and replaying the trace tracks the new pending set. -/
theorem execute_all_exits_spec (cfg : ExitSettings)
    (pending S : List String) (posClean posCheck : List Position)
    (placeOk : String → Bool)
    (hmem : ∀ x, x ∈ S ↔ x ∈ pending)
    (hnodup : (posCheck.map Position.ticker).Nodup) :
    traceOk (execute_all_exits cfg pending posClean posCheck placeOk).2 S =
      true ∧
    (∀ x, x ∈ applyEvents
        (execute_all_exits cfg pending posClean posCheck placeOk).2 S ↔
      x ∈ (execute_all_exits cfg pending posClean posCheck placeOk).1) := by
  have hmem1 : ∀ x,
      x ∈ applyEvents
        ((pending.filter
          (· ∉ posClean.map Position.ticker)).map ExitEvent.removed) S ↔
      x ∈ pending.filter (· ∈ posClean.map Position.ticker) := by
    intro x
    rw [applyEvents_removes, hmem]
    simp only [List.mem_filter, decide_not, Bool.not_eq_true',
      decide_eq_false_iff_not, decide_eq_true_eq]
    tauto
  have hsignodup : ((check_exits cfg
      (pending.filter (· ∈ posClean.map Position.ticker))
      posCheck).map ExitSignal.ticker).Nodup :=
    hnodup.sublist (check_exits_tickers_sublist cfg _ posCheck)
  obtain ⟨hOk, hMem⟩ := executeSignals_spec placeOk
    (check_exits cfg (pending.filter (· ∈ posClean.map Position.ticker))
      posCheck)
    (pending.filter (· ∈ posClean.map Position.ticker))
    (applyEvents ((pending.filter
      (· ∉ posClean.map Position.ticker)).map ExitEvent.removed) S)
    hmem1 hsignodup
    (check_exits_fresh cfg _ posCheck)
  constructor
  · rw [execute_all_exits, traceOk_append, traceOk_removes]
    simpa using hOk
  · intro x
    rw [execute_all_exits]
    dsimp only
    rw [applyEvents_append]
    exact hMem x

/-- Running any sequence of main-loop operations (`check_exits` and
`execute_all_exits` with per-ticker-unique strategy reads) emits an
admissible trace, and replaying the trace tracks the pending-exit set. -/
theorem exitRun_spec (cfg : ExitSettings) :
    ∀ (ops : List ExitOp) (pending S : List String),
      (∀ x, x ∈ S ↔ x ∈ pending) →
      (∀ op ∈ ops, mainLoopOp op) →
      traceOk (exitRun cfg pending ops).2 S = true ∧
      (∀ x, x ∈ applyEvents (exitRun cfg pending ops).2 S ↔
        x ∈ (exitRun cfg pending ops).1) := by
  intro ops
  induction ops with
  | nil =>
    intro pending S hmem _
    exact ⟨rfl, hmem⟩
  | cons op rest ih =>
    intro pending S hmem hgood
    have hop := hgood op (List.mem_cons_self op rest)
    have hrest := fun o ho => hgood o (List.mem_cons_of_mem op ho)
    cases op with
    | checkExits positions =>
      have hstep : exitRun cfg pending (.checkExits positions :: rest) =
          exitRun cfg pending rest := by
        simp [exitRun, exitStep]
      rw [hstep]
      exact ih pending S hmem hrest
    | executeExit sig placeOk => exact absurd hop not_false
    | forceExit ticker positions placeOk => exact absurd hop not_false
    | executeAllExits posClean posCheck placeOk =>
      have hnodup : (posCheck.map Position.ticker).Nodup := hop
      obtain ⟨hOk1, hMem1⟩ := execute_all_exits_spec cfg pending S
        posClean posCheck placeOk hmem hnodup
      have hstep : exitRun cfg pending
          (.executeAllExits posClean posCheck placeOk :: rest) =
          ((exitRun cfg
              (execute_all_exits cfg pending posClean posCheck placeOk).1
              rest).1,
            (execute_all_exits cfg pending posClean posCheck placeOk).2 ++
              (exitRun cfg
                (execute_all_exits cfg pending posClean posCheck
                  placeOk).1 rest).2) := by
        simp [exitRun, exitStep]
      obtain ⟨ihOk, ihMem⟩ := ih
        (execute_all_exits cfg pending posClean posCheck placeOk).1
        (applyEvents
          (execute_all_exits cfg pending posClean posCheck placeOk).2 S)
        hMem1 hrest
      rw [hstep]
      constructor
      · rw [traceOk_append, hOk1, ihOk]
        rfl
      · intro x
        rw [applyEvents_append]
        exact ihMem x

/-- C1 amended: restricted to the main-loop flow — sequences of
`check_exits` and `execute_all_exits` operations in which each
strategy-driving authoritative read contains at most one position per
ticker — the handler never places two exit orders for the same ticker
without an intervening removal of that ticker from the pending-exit set
(tickers are removed only when their position has disappeared from the
authoritative read, and `execute_exit` adds a ticker only on placement
success).  `force_exit` and direct `execute_exit` calls bypass the
pending-exit check and can duplicate, as the counterexample shows. -/
theorem C1_no_duplicate_exit_orders (cfg : ExitSettings)
    (ops : List ExitOp) (hgood : ∀ op ∈ ops, mainLoopOp op) :
    traceOk (exitRun cfg [] ops).2 [] = true :=
  (exitRun_spec cfg ops [] [] (fun _ => Iff.rfl) hgood).1

theorem C1_no_duplicate_exit_orders_witness :
    (∀ op ∈ mainLoopOps, mainLoopOp op) ∧
    traceOk (exitRun witnessExitSettings [] mainLoopOps).2 [] = true := by
  have hgood : ∀ op ∈ mainLoopOps, mainLoopOp op := by
    intro op hop
    rcases List.mem_cons.mp hop with rfl | hop'
    · exact trivial
    · rcases List.mem_cons.mp hop' with rfl | hop''
      · simp [mainLoopOp]
      · cases hop''
  exact ⟨hgood,
    C1_no_duplicate_exit_orders witnessExitSettings mainLoopOps hgood⟩
